import Mathlib

/-!
# Verification of the `sync/ffmpeg.py` batch video-encoding module

A shallow embedding of `src/sync/ffmpeg.py` (functions `_build_filename`,
`encode_video_single`, `encode_videos`) together with proofs of the
specified properties.

Modelling choices:
* Python floats are embedded as rationals (`ℚ`); every numeric value the
  specification exercises is dyadic and exact at the precision used, so
  fixed-point rendering agrees with Python's `:.2f` / `:.3f` formatting.
* `Optional[float]` becomes `Option ℚ`; Python truthiness of such a value
  (`if x:`) is `x` present and nonzero.
* The filesystem is a set of existing paths (`FS`); `os.path.exists`,
  `os.path.getatime` (used only as an accessibility probe) and
  `os.makedirs` are interpreted against it.
* The external tool (`subprocess.check_call`) is an oracle
  `tool_ok : String → Bool` on the joined command string; a successful run
  creates the output target, a failed run raises `CalledProcessError`.
* Each operation returns the final filesystem, the list of command strings
  actually handed to the external tool, and either the produced value or
  the raised error, so that "raises", "invokes" and "filesystem change"
  are all visible in the result.
-/

/-- Decimal digit character for `n < 10` (as produced by number rendering). -/
def digitChar (n : Nat) : Char :=
  Char.ofNat (48 + n)

/-- Fuelled accumulator loop rendering a natural number in decimal. -/
def natDigitsCore : Nat → Nat → List Char → List Char
  | 0, _, acc => acc
  | fuel + 1, n, acc =>
      if n < 10 then digitChar n :: acc
      else natDigitsCore fuel (n / 10) (digitChar (n % 10) :: acc)

/-- Decimal rendering of a natural number (model of Python `str`/`f-string`
rendering of a nonnegative integer). -/
def natStr (n : Nat) : String :=
  ⟨natDigitsCore (n + 1) n []⟩

/-- Decimal rendering of an integer (model of Python rendering of an `int`). -/
def intStr (i : Int) : String :=
  if i < 0 then "-" ++ natStr i.natAbs else natStr i.natAbs

/-- Subtraction of rationals by explicit cross-multiplication (equal to `a - b`
by `Rat.sub_def'`; spelled this way so that it evaluates inside the kernel). -/
def qSub (a b : ℚ) : ℚ :=
  mkRat (a.num * b.den - b.num * a.den) (a.den * b.den)

/-- Binary minimum the way Python's `min` computes it: keep the current value
unless the challenger is strictly smaller. -/
def qmin (d x : ℚ) : ℚ :=
  if Rat.blt x d then x else d

/-- Python `min` over a nonempty list given as head and tail. -/
def listMin (d : ℚ) (xs : List ℚ) : ℚ :=
  xs.foldl qmin d

/-- `⌊q * scale + 1/2⌋` computed directly on numerator and denominator. -/
def roundScaled (scale : Nat) (q : ℚ) : Int :=
  Int.fdiv (2 * q.num * scale + q.den) (2 * q.den)

/-- Fixed-point rendering of a rational with `pad` decimal digits and scale
`10^pad`: the model of Python's `:.2f` / `:.3f` f-string formats (exact on the
dyadic values the module is used with). -/
def fixedStr (scale : Nat) (pad : Nat) (q : ℚ) : String :=
  let n : Int := roundScaled scale q
  let sign : String := if n < 0 then "-" else ""
  let m : Nat := n.natAbs
  let frac : Nat := m % scale
  let fracStr : String := natStr frac
  let padStr : String := String.mk (List.replicate (pad - fracStr.length) '0')
  sign ++ natStr (m / scale) ++ "." ++ padStr ++ fracStr

/-- Model of the Python format `f'{q:.2f}'`. -/
def format2f (q : ℚ) : String := fixedStr 100 2 q

/-- Model of the Python format `f'{q:.3f}'`. -/
def format3f (q : ℚ) : String := fixedStr 1000 3 q

/-- Python truthiness of an `Optional[float]`: present and nonzero. -/
def truthyQ : Option ℚ → Bool
  | none => false
  | some v => v != 0

/-- Model of `os.path.basename` on POSIX paths: the part after the last
separator. -/
def basename (p : String) : String :=
  ⟨((p.toList.reverse.takeWhile (fun c => c ≠ '/')).reverse)⟩

/-- Model of `os.path.splitext` restricted to basenames (the only way the
module calls it): split off the extension at the last dot, unless every
character before that dot is itself a dot. -/
def splitext (name : String) : String × String :=
  let cs := name.toList
  if cs.contains '.' then
    let extRev := cs.reverse.takeWhile (fun c => c ≠ '.')
    let dotIndex := cs.length - extRev.length - 1
    let stem := cs.take dotIndex
    if stem.any (fun c => c ≠ '.') then
      (⟨stem⟩, ⟨cs.drop dotIndex⟩)
    else
      (name, "")
  else
    (name, "")

/-- Model of `os.path.join` for two POSIX path components. -/
def joinPath (a b : String) : String :=
  if b.toList.head? = some '/' then b
  else if a.toList = [] ∨ a.toList.getLast? = some '/' then a ++ b
  else a ++ "/" ++ b

/-- Model of Python `sep.join(xs)`. -/
def strJoin (sep : String) : List String → String
  | [] => ""
  | [x] => x
  | x :: y :: xs => x ++ sep ++ strJoin sep (y :: xs)

/-- The ordered feature-tag list built by `_build_filename`: one tag per
truthy parameter, in the fixed order start-offset, duration, fps,
resolution. -/
def buildFeatures (start_offset duration fps : Option ℚ)
    (resolution : Option (Int × Int)) : List String :=
  (if truthyQ start_offset then ["ss" ++ format2f (start_offset.getD 0)] else [])
    ++ (if truthyQ duration then ["t" ++ format2f (duration.getD 0)] else [])
    ++ (if truthyQ fps then ["fps" ++ format2f (fps.getD 0)] else [])
    ++ (match resolution with
        | some wh => [intStr wh.1 ++ "x" ++ intStr wh.2]
        | none => [])

/-- Embedding of `_build_filename` from `src/sync/ffmpeg.py`: strip the
extension, append the bracketed underscore-joined feature tags when any
parameter is truthy, and return the stem together with the extension. -/
def build_filename (basename' : String) (start_offset duration fps : Option ℚ)
    (resolution : Option (Int × Int)) : String × String :=
  let se := splitext basename'
  let base_wo_ext := se.1
  let extension := se.2
  let features := buildFeatures start_offset duration fps resolution
  let ret :=
    if features.isEmpty then base_wo_ext
    else base_wo_ext ++ "_[" ++ strJoin "_" features ++ "]"
  (ret, extension)

instance exceptDecEq {ε α : Type} [DecidableEq ε] [DecidableEq α] :
    DecidableEq (Except ε α) := fun x y =>
  match x, y with
  | Except.ok a, Except.ok b =>
    if h : a = b then isTrue (by rw [h])
    else isFalse fun hc => h (Except.ok.inj hc)
  | Except.error a, Except.error b =>
    if h : a = b then isTrue (by rw [h])
    else isFalse fun hc => h (Except.error.inj hc)
  | Except.ok _, Except.error _ => isFalse fun hc => Except.noConfusion hc
  | Except.error _, Except.ok _ => isFalse fun hc => Except.noConfusion hc

/-- The filesystem model: the set (as a list) of currently existing paths. -/
structure FS where
  paths : List String
deriving DecidableEq

/-- Model of `os.path.exists` / successful `os.path.getatime`. -/
def FS.exists (fs : FS) (p : String) : Bool :=
  fs.paths.contains p

/-- Model of path creation (`os.makedirs`, or the external tool writing its
output target). -/
def FS.add (fs : FS) (p : String) : FS :=
  ⟨p :: fs.paths⟩

/-- The command string built by `encode_video_single` before the output
argument is appended: input selection, then `-ss`/`-t` when the corresponding
parameter is truthy (and positive, for `-ss`), then the comma-joined
`fps`/`scale` filter chain when present. -/
def build_cmd (video : String) (start_offset duration fps : Option ℚ)
    (resolution : Option (Int × Int)) (save_frames : Bool) : List String :=
  let cmd0 := ["ffmpeg", "-hide_banner", "-y", "-i", video, "-map", "0:v"]
  let cmd1 := cmd0 ++
    (match start_offset with
     | some v => if v != 0 && Rat.blt 0 v then ["-ss", format3f v] else []
     | none => [])
  let cmd2 := cmd1 ++
    (match duration with
     | some v => if v != 0 then ["-t", format3f v] else []
     | none => [])
  let filters :=
    (match fps with
     | some v => if v != 0 && Rat.blt 0 v then ["fps=" ++ format3f v] else []
     | none => []) ++
    (match resolution with
     | some wh => ["scale=" ++ intStr wh.1 ++ ":" ++ intStr wh.2]
     | none => [])
  let cmd3 := cmd2 ++
    (if filters.isEmpty then []
     else ["-filter:v", "\x22" ++ strJoin ", " filters ++ "\x22"])
  cmd3 ++ (if save_frames then ["-q:v", "4"] else [])

/-- The output path computed by `encode_video_single`: a directory (frame
mode) or a file carrying the original extension (video mode). -/
def single_output_path (video output_dir : String) (save_frames : Bool)
    (start_offset duration fps : Option ℚ)
    (resolution : Option (Int × Int)) : String :=
  let bf := build_filename (basename video) start_offset duration fps resolution
  if save_frames then joinPath output_dir bf.1
  else joinPath output_dir (bf.1 ++ bf.2)

/-- The target argument appended to the command: the per-frame numbered image
template inside the output directory in frame mode, the output file itself in
video mode. -/
def single_output_file (video output_dir : String) (save_frames : Bool)
    (start_offset duration fps : Option ℚ)
    (resolution : Option (Int × Int)) : String :=
  let p := single_output_path video output_dir save_frames
    start_offset duration fps resolution
  if save_frames then joinPath p "%04d.jpeg" else p

/-- The full command string handed to `subprocess.check_call`. -/
def single_cmd_str (video output_dir : String) (save_frames : Bool)
    (start_offset duration fps : Option ℚ)
    (resolution : Option (Int × Int)) : String :=
  strJoin " "
    (build_cmd video start_offset duration fps resolution save_frames ++
      [single_output_file video output_dir save_frames
        start_offset duration fps resolution])

/-- Embedding of `encode_video_single` from `src/sync/ffmpeg.py`.

Returns the final filesystem, the list of command strings handed to
`subprocess.check_call`, and either the returned output path or the raised
error. The skip branch (`overwrite` false and output path existing) returns
before anything else happens; otherwise in frame mode the output directory is
created before the invocation, and a successful invocation creates the output
target while a failed one raises `CalledProcessError`. -/
def encode_video_single (tool_ok : String → Bool) (fs : FS)
    (video output_dir : String) (overwrite save_frames : Bool)
    (start_offset duration fps : Option ℚ)
    (resolution : Option (Int × Int)) :
    FS × List String × Except String String :=
  let output_path :=
    single_output_path video output_dir save_frames
      start_offset duration fps resolution
  if !overwrite && fs.exists output_path then
    (fs, [], Except.ok output_path)
  else
    let output_file := single_output_file video output_dir save_frames
      start_offset duration fps resolution
    let fs1 := if save_frames then fs.add output_path else fs
    let cmd_str := single_cmd_str video output_dir save_frames
      start_offset duration fps resolution
    if tool_ok cmd_str then
      (fs1.add output_file, [cmd_str], Except.ok output_path)
    else
      (fs1, [cmd_str], Except.error ("CalledProcessError: " ++ cmd_str))

/-- One alignment record: `{file, orig_duration, trim}`. -/
structure AlignInfo where
  file : String
  orig_duration : ℚ
  trim : ℚ
deriving DecidableEq

/-- The first loop of `encode_videos` in the truthy-`align_info` case: for
each file, probe accessibility (`os.path.getatime`), look up the alignment
record at the same index (an exhausted record list is Python's `IndexError`),
assert that the basenames agree, and collect the per-file start offset
(`trim`) and clip duration (`orig_duration - trim`). -/
def plan_align (fs : FS) : List String → List AlignInfo →
    Except String (List (String × Option ℚ) × List ℚ)
  | [], _ => Except.ok ([], [])
  | f :: _, [] =>
    if fs.exists f then Except.error "IndexError: list index out of range"
    else Except.error ("OSError: " ++ f)
  | f :: files, r :: rs =>
    if fs.exists f then
      if basename r.file = basename f then
        match plan_align fs files rs with
        | Except.ok (kws, durs) =>
            Except.ok ((f, some r.trim) :: kws,
              qSub r.orig_duration r.trim :: durs)
        | Except.error e => Except.error e
      else
        Except.error
          "AssertionError: the files and align info seem to be out of order"
    else
      Except.error ("OSError: " ++ f)

/-- The first loop of `encode_videos` when `align_info` is falsy: only the
accessibility probe runs; no start offset is recorded. -/
def plan_noalign (fs : FS) : List String →
    Except String (List (String × Option ℚ))
  | [] => Except.ok []
  | f :: files =>
    if fs.exists f then
      match plan_noalign fs files with
      | Except.ok kws => Except.ok ((f, none) :: kws)
      | Except.error e => Except.error e
    else
      Except.error ("OSError: " ++ f)

/-- Python `min` over a list; `min` of an empty list raises `ValueError`. -/
def pyMin : List ℚ → Except String ℚ
  | [] => Except.error "ValueError: min() arg is an empty sequence"
  | d :: ds => Except.ok (listMin d ds)

/-- The planning phase of `encode_videos`: the per-file `(video,
start_offset)` pairs together with the shared batch duration (the minimum
clip duration, present exactly when `align_info` is truthy). -/
def plan_batch (fs : FS) (video_files : List String)
    (align_info : Option (List AlignInfo)) :
    Except String (List (String × Option ℚ) × Option ℚ) :=
  match align_info with
  | some recs =>
    if recs.isEmpty then
      match plan_noalign fs video_files with
      | Except.ok kws => Except.ok (kws, none)
      | Except.error e => Except.error e
    else
      match plan_align fs video_files recs with
      | Except.ok (kws, durs) =>
        match pyMin durs with
        | Except.ok m => Except.ok (kws, some m)
        | Except.error e => Except.error e
      | Except.error e => Except.error e
  | none =>
    match plan_noalign fs video_files with
    | Except.ok kws => Except.ok (kws, none)
    | Except.error e => Except.error e

/-- The second loop of `encode_videos`: run `encode_video_single` on each
planned file in order, threading the filesystem, accumulating the command
strings actually issued, and stopping at the first error. -/
def run_batch (tool_ok : String → Bool) (fs : FS) (output_dir : String)
    (overwrite save_frames : Bool) (duration fps : Option ℚ)
    (resolution : Option (Int × Int)) :
    List (String × Option ℚ) → FS × List String × Except String (List String)
  | [] => (fs, [], Except.ok [])
  | (video, st_offset) :: rest =>
    let r1 := encode_video_single tool_ok fs video output_dir
      overwrite save_frames st_offset duration fps resolution
    match r1.2.2 with
    | Except.error e => (r1.1, r1.2.1, Except.error e)
    | Except.ok p =>
      let r2 := run_batch tool_ok r1.1 output_dir overwrite save_frames
        duration fps resolution rest
      (r2.1, r1.2.1 ++ r2.2.1,
        match r2.2.2 with
        | Except.ok ps => Except.ok (p :: ps)
        | Except.error e => Except.error e)

/-- Embedding of `encode_videos` from `src/sync/ffmpeg.py`: the empty batch
returns immediately; otherwise the planning loop (access checks, alignment
asserts, shared-duration computation) runs to completion before any external
invocation, and then each file is encoded sequentially. -/
def encode_videos (tool_ok : String → Bool) (fs : FS)
    (video_files : List String) (output_dir : String)
    (overwrite save_frames : Bool)
    (align_info : Option (List AlignInfo)) (fps : Option ℚ)
    (resolution : Option (Int × Int)) :
    FS × List String × Except String (List String) :=
  if video_files.isEmpty then (fs, [], Except.ok [])
  else
    match plan_batch fs video_files align_info with
    | Except.error e => (fs, [], Except.error e)
    | Except.ok (kws, duration) =>
      run_batch tool_ok fs output_dir overwrite save_frames
        duration fps resolution kws

/-- Whether a result is a raised error. -/
def isError {α : Type} : Except String α → Bool
  | Except.error _ => true
  | Except.ok _ => false

/-! ## Helper lemmas -/

theorem qSub_eq (a b : ℚ) : qSub a b = a - b :=
  (Rat.sub_def' a b).symm

theorem qmin_le_left (d x : ℚ) : qmin d x ≤ d := by
  unfold qmin
  by_cases h : Rat.blt x d
  · simp only [h, if_pos]
    exact le_of_lt h
  · simp only [h, if_neg, Bool.false_eq_true, not_false_iff, if_false]
    exact le_refl d

theorem qmin_le_right (d x : ℚ) : qmin d x ≤ x := by
  unfold qmin
  by_cases h : Rat.blt x d
  · simp only [h, if_pos]
    exact le_refl x
  · simp only [h, if_neg, Bool.false_eq_true, not_false_iff, if_false]
    have : ¬x < d := fun hc => h hc
    exact le_of_not_lt this

theorem qmin_cases (d x : ℚ) : qmin d x = d ∨ qmin d x = x := by
  unfold qmin
  by_cases h : Rat.blt x d <;> simp [h]

theorem listMin_le_init (d : ℚ) (xs : List ℚ) : listMin d xs ≤ d := by
  induction xs generalizing d with
  | nil => exact le_refl d
  | cons x xs ih =>
    calc listMin d (x :: xs) = listMin (qmin d x) xs := rfl
    _ ≤ qmin d x := ih (qmin d x)
    _ ≤ d := qmin_le_left d x

theorem listMin_le_mem (d : ℚ) (xs : List ℚ) :
    ∀ x ∈ xs, listMin d xs ≤ x := by
  induction xs generalizing d with
  | nil => intro x hx; cases hx
  | cons y ys ih =>
    intro x hx
    rcases List.mem_cons.mp hx with rfl | h
    · calc listMin d (x :: ys) = listMin (qmin d x) ys := rfl
      _ ≤ qmin d x := listMin_le_init _ _
      _ ≤ x := qmin_le_right d x
    · exact ih (qmin d y) x h

theorem listMin_mem (d : ℚ) (xs : List ℚ) :
    listMin d xs = d ∨ listMin d xs ∈ xs := by
  induction xs generalizing d with
  | nil => exact Or.inl rfl
  | cons x xs ih =>
    have step : listMin d (x :: xs) = listMin (qmin d x) xs := rfl
    rcases ih (qmin d x) with h | h
    · rcases qmin_cases d x with hq | hq
      · exact Or.inl (by rw [step, h, hq])
      · exact Or.inr (by rw [step, h, hq]; exact List.mem_cons_self _ _)
    · exact Or.inr (by rw [step]; exact List.mem_cons_of_mem _ h)

theorem exists_add (fs : FS) (p q : String) :
    (fs.add q).exists p = (p == q || fs.exists p) := by
  simp only [FS.exists, FS.add, List.contains_cons]

theorem exists_add_self (fs : FS) (q : String) :
    (fs.add q).exists q = true := by
  simp [exists_add]

theorem exists_add_of_exists {fs : FS} {p : String} (q : String)
    (h : fs.exists p = true) : (fs.add q).exists p = true := by
  simp [exists_add, h]

/-- Unfolding of `encode_video_single` into its three possible outcomes:
skip, successful invocation, failed invocation. -/
theorem encode_video_single_eq (tool_ok : String → Bool) (fs : FS)
    (video output_dir : String) (overwrite save_frames : Bool)
    (start_offset duration fps : Option ℚ)
    (resolution : Option (Int × Int)) :
    encode_video_single tool_ok fs video output_dir overwrite save_frames
        start_offset duration fps resolution =
      (let p := single_output_path video output_dir save_frames
        start_offset duration fps resolution
      let ofile := single_output_file video output_dir save_frames
        start_offset duration fps resolution
      let cstr := single_cmd_str video output_dir save_frames
        start_offset duration fps resolution
      let fs1 := if save_frames then fs.add p else fs
      if !overwrite && fs.exists p then (fs, [], Except.ok p)
      else if tool_ok cstr then (fs1.add ofile, [cstr], Except.ok p)
      else (fs1, [cstr], Except.error ("CalledProcessError: " ++ cstr))) :=
  rfl

/-- A single-file encode never removes an existing path. -/
theorem encode_video_single_mono (tool_ok : String → Bool) (fs : FS)
    (video output_dir : String) (overwrite save_frames : Bool)
    (start_offset duration fps : Option ℚ)
    (resolution : Option (Int × Int)) (q : String)
    (h : fs.exists q = true) :
    (encode_video_single tool_ok fs video output_dir overwrite save_frames
        start_offset duration fps resolution).1.exists q = true := by
  rw [encode_video_single_eq]
  dsimp only
  split
  · exact h
  · split
    · cases save_frames <;>
        simp only [if_pos, if_neg, Bool.false_eq_true, not_false_iff,
          reduceIte] <;>
        exact exists_add_of_exists _ (by first
          | exact h
          | exact exists_add_of_exists _ h)
    · cases save_frames <;>
        simp only [reduceIte] <;>
        first
          | exact h
          | exact exists_add_of_exists _ h

/-- With `overwrite` false and the output path existing, the call skips. -/
theorem encode_single_skip (tool : String → Bool) (fs : FS)
    (v out : String) (sf : Bool) (so du f : Option ℚ)
    (r : Option (Int × Int))
    (h : fs.exists (single_output_path v out sf so du f r) = true) :
    encode_video_single tool fs v out false sf so du f r =
      (fs, [], Except.ok (single_output_path v out sf so du f r)) := by
  rw [encode_video_single_eq]
  simp only [Bool.not_false, Bool.true_and, h, if_pos]

/-- Whenever a single-file encode returns a path, that path is the computed
output path, and it exists in the resulting filesystem. -/
theorem encode_single_success_exists (tool : String → Bool) (fs : FS)
    (v out : String) (ow sf : Bool) (so du f : Option ℚ)
    (r : Option (Int × Int)) :
    ∀ p, (encode_video_single tool fs v out ow sf so du f r).2.2 =
        Except.ok p →
      p = single_output_path v out sf so du f r ∧
      (encode_video_single tool fs v out ow sf so du f r).1.exists
        (single_output_path v out sf so du f r) = true := by
  intro p hp
  rw [encode_video_single_eq] at hp ⊢
  dsimp only at hp ⊢
  by_cases h : (!ow && fs.exists (single_output_path v out sf so du f r))
    = true
  · rw [if_pos h] at hp ⊢
    refine ⟨(Except.ok.inj hp).symm, ?_⟩
    exact (Bool.and_eq_true _ _ |>.mp h).2
  · rw [if_neg h] at hp ⊢
    by_cases ht : tool (single_cmd_str v out sf so du f r) = true
    · rw [if_pos ht] at hp ⊢
      refine ⟨(Except.ok.inj hp).symm, ?_⟩
      cases sf with
      | true =>
        simp only [reduceIte]
        exact exists_add_of_exists _ (exists_add_self _ _)
      | false =>
        simp only [Bool.false_eq_true, reduceIte]
        exact exists_add_self _ _
    · rw [if_neg ht] at hp
      exact absurd hp (fun hc => Except.noConfusion hc)

/-- C3: with `overwrite = false`, if the computed output path already exists
the single-file encode returns it immediately, with no invocation and no
filesystem change; consequently two consecutive identical calls invoke the
external tool at most once in total for the first call and never for the
second, and both return the same path. -/
theorem encode_single_idempotent_c3 :
    ∀ tool fs v out sf so du f r,
      (fs.exists (single_output_path v out sf so du f r) = true →
        encode_video_single tool fs v out false sf so du f r =
          (fs, [], Except.ok (single_output_path v out sf so du f r)))
      ∧ (∀ p,
          (encode_video_single tool fs v out false sf so du f r).2.2 =
            Except.ok p →
          encode_video_single tool
              (encode_video_single tool fs v out false sf so du f r).1
              v out false sf so du f r =
            ((encode_video_single tool fs v out false sf so du f r).1, [],
              Except.ok p)
          ∧ (encode_video_single tool fs v out false sf so du f r).2.1.length
              ≤ 1) := by
  intro tool fs v out sf so du f r
  refine ⟨encode_single_skip tool fs v out sf so du f r, ?_⟩
  intro p hp
  obtain ⟨rfl, hex⟩ :=
    encode_single_success_exists tool fs v out false sf so du f r p hp
  refine ⟨encode_single_skip tool _ v out sf so du f r hex, ?_⟩
  rw [encode_video_single_eq]
  dsimp only
  split
  · exact Nat.zero_le 1
  · split
    · exact le_refl 1
    · exact le_refl 1

/-- Witness for C3 at a concrete input: an always-succeeding tool, an empty
filesystem and a plain video-mode encode of `a.mp4`. -/
theorem encode_single_idempotent_c3_witness :
    encode_video_single (fun _ => true)
        (encode_video_single (fun _ => true) ⟨[]⟩ "a.mp4" "out" false false
          none none none none).1
        "a.mp4" "out" false false none none none none =
      ((encode_video_single (fun _ => true) ⟨[]⟩ "a.mp4" "out" false false
          none none none none).1, [], Except.ok "out/a.mp4") :=
  ((encode_single_idempotent_c3 (fun _ => true) ⟨[]⟩ "a.mp4" "out" false
      none none none none).2 "out/a.mp4" (by decide)).1

/-- C8: a non-skipped single-file encode in frame mode returns the
extension-free directory path and creates that directory before the external
invocation (it exists afterwards even when the tool fails), while in video
mode it returns a file path carrying the input's original extension and
pre-creates nothing (a failed invocation leaves the filesystem unchanged). -/
theorem encode_single_modes_c8 :
    ∀ tool fs v out ow so du f r,
      ((build_filename (basename v) so du f r).2 =
        (splitext (basename v)).2)
      ∧ (single_output_path v out true so du f r =
          joinPath out (build_filename (basename v) so du f r).1)
      ∧ (single_output_path v out false so du f r =
          joinPath out ((build_filename (basename v) so du f r).1 ++
            (build_filename (basename v) so du f r).2))
      ∧ ((ow = true ∨
            fs.exists (single_output_path v out true so du f r) = false) →
          (encode_video_single tool fs v out ow true so du f r).1.exists
              (single_output_path v out true so du f r) = true
          ∧ ∀ p', (encode_video_single tool fs v out ow true so du f r).2.2 =
              Except.ok p' → p' = single_output_path v out true so du f r)
      ∧ ((ow = true ∨
            fs.exists (single_output_path v out false so du f r) = false) →
          (tool (single_cmd_str v out false so du f r) = false →
            (encode_video_single tool fs v out ow false so du f r).1 = fs)
          ∧ ∀ p', (encode_video_single tool fs v out ow false so du f r).2.2 =
              Except.ok p' → p' = single_output_path v out false so du f r) := by
  intro tool fs v out ow so du f r
  have hskip : ∀ sf : Bool,
      ow = true ∨ fs.exists (single_output_path v out sf so du f r) = false →
      (!ow && fs.exists (single_output_path v out sf so du f r)) = false := by
    intro sf h
    rcases h with h | h
    · rw [h]
      rfl
    · rw [h]
      simp
  refine ⟨rfl, rfl, rfl, ?_, ?_⟩
  · intro h
    refine ⟨?_, fun p' hp' =>
      (encode_single_success_exists tool fs v out ow true so du f r p' hp').1⟩
    rw [encode_video_single_eq]
    dsimp only
    rw [if_neg (ne_true_of_eq_false (hskip true h))]
    by_cases ht : tool (single_cmd_str v out true so du f r) = true
    · rw [if_pos ht]
      exact exists_add_of_exists _ (exists_add_self _ _)
    · rw [if_neg ht]
      exact exists_add_self _ _
  · intro h
    refine ⟨?_, fun p' hp' =>
      (encode_single_success_exists tool fs v out ow false so du f r p' hp').1⟩
    intro ht
    rw [encode_video_single_eq]
    dsimp only
    rw [if_neg (ne_true_of_eq_false (hskip false h)),
      if_neg (ne_true_of_eq_false ht)]
    rfl

/-- Witness for C8 at a concrete input: with an always-failing tool, the
frame-mode directory `out/a` exists afterwards, while the video-mode call
leaves the filesystem untouched. -/
theorem encode_single_modes_c8_witness :
    (encode_video_single (fun _ => false) ⟨[]⟩ "a.mp4" "out" false true
        none none none none).1.exists
      (single_output_path "a.mp4" "out" true none none none none) = true
    ∧ (encode_video_single (fun _ => false) ⟨[]⟩ "a.mp4" "out" false false
        none none none none).1 = ⟨[]⟩ :=
  ⟨((encode_single_modes_c8 (fun _ => false) ⟨[]⟩ "a.mp4" "out" false
      none none none none).2.2.2.1 (Or.inr (by decide))).1,
   ((encode_single_modes_c8 (fun _ => false) ⟨[]⟩ "a.mp4" "out" false
      none none none none).2.2.2.2 (Or.inr (by decide))).1 rfl⟩

/-- A batch run never removes an existing path. -/
theorem run_batch_mono (tool : String → Bool) (out : String)
    (ow sf : Bool) (du f : Option ℚ) (r : Option (Int × Int)) :
    ∀ (l : List (String × Option ℚ)) (fs : FS) (q : String),
      fs.exists q = true →
      (run_batch tool fs out ow sf du f r l).1.exists q = true := by
  intro l
  induction l with
  | nil => intro fs q h; exact h
  | cons x rest ih =>
    intro fs q h
    obtain ⟨v, so⟩ := x
    have hmono := encode_video_single_mono tool fs v out ow sf so du f r q h
    rw [run_batch]
    dsimp only
    cases hE : (encode_video_single tool fs v out ow sf so du f r).2.2 with
    | error e => exact hmono
    | ok p => exact ih _ q hmono

/-- C6: once a single-file encode reaches the external invocation, it returns
the output path exactly when the tool exits zero and raises
`CalledProcessError` when it does not; in a batch such an error propagates
immediately (the remaining files contribute no further invocations) and no
already-existing output is removed. -/
theorem tool_failure_propagates_c6 :
    ∀ tool fs v out ow sf so du f r,
      ((ow = true ∨
          fs.exists (single_output_path v out sf so du f r) = false) →
        ((encode_video_single tool fs v out ow sf so du f r).2.2 =
            Except.ok (single_output_path v out sf so du f r)
          ↔ tool (single_cmd_str v out sf so du f r) = true)
        ∧ (tool (single_cmd_str v out sf so du f r) = false →
          (encode_video_single tool fs v out ow sf so du f r).2.2 =
            Except.error ("CalledProcessError: " ++
              single_cmd_str v out sf so du f r)))
      ∧ (∀ rest e,
          (encode_video_single tool fs v out ow sf so du f r).2.2 =
            Except.error e →
          run_batch tool fs out ow sf du f r ((v, so) :: rest) =
            ((encode_video_single tool fs v out ow sf so du f r).1,
             (encode_video_single tool fs v out ow sf so du f r).2.1,
             Except.error e))
      ∧ (∀ l q, fs.exists q = true →
          (run_batch tool fs out ow sf du f r l).1.exists q = true) := by
  intro tool fs v out ow sf so du f r
  have hskip : ow = true ∨
      fs.exists (single_output_path v out sf so du f r) = false →
      (!ow && fs.exists (single_output_path v out sf so du f r)) = false := by
    intro h
    rcases h with h | h
    · rw [h]
      rfl
    · rw [h]
      simp
  refine ⟨?_, ?_, fun l q h => run_batch_mono tool out ow sf du f r l fs q h⟩
  · intro h
    rw [encode_video_single_eq]
    dsimp only
    rw [if_neg (ne_true_of_eq_false (hskip h))]
    by_cases ht : tool (single_cmd_str v out sf so du f r) = true
    · rw [if_pos ht]
      exact ⟨⟨fun _ => ht, fun _ => rfl⟩,
        fun hf => Bool.noConfusion (ht.symm.trans hf)⟩
    · rw [if_neg ht]
      refine ⟨⟨fun hc => absurd hc (fun hc => Except.noConfusion hc),
        fun hT => absurd hT ht⟩, fun _ => rfl⟩
  · intro rest e hE
    rw [run_batch]
    dsimp only
    rw [hE]

/-- Witness for C6 at a concrete input: an always-failing tool on `a.mp4`
raises `CalledProcessError`, the one-file batch propagates it with the single
recorded invocation, and the pre-existing path `keep` survives. -/
theorem tool_failure_propagates_c6_witness :
    ((encode_video_single (fun _ => false) ⟨["keep"]⟩ "a.mp4" "out" false
        false none none none none).2.2 =
      Except.error ("CalledProcessError: " ++
        single_cmd_str "a.mp4" "out" false none none none none))
    ∧ run_batch (fun _ => false) ⟨["keep"]⟩ "out" false false none none none
        [("a.mp4", none)] =
      ((encode_video_single (fun _ => false) ⟨["keep"]⟩ "a.mp4" "out" false
          false none none none none).1,
       (encode_video_single (fun _ => false) ⟨["keep"]⟩ "a.mp4" "out" false
          false none none none none).2.1,
       Except.error ("CalledProcessError: " ++
         single_cmd_str "a.mp4" "out" false none none none none))
    ∧ (run_batch (fun _ => false) ⟨["keep"]⟩ "out" false false none none none
        [("a.mp4", none)]).1.exists "keep" = true := by
  have h := tool_failure_propagates_c6 (fun _ => false) ⟨["keep"]⟩ "a.mp4"
    "out" false false none none none none
  have h1 := (h.1 (Or.inr (by decide))).2 rfl
  exact ⟨h1, h.2.1 [] _ h1, h.2.2 [("a.mp4", none)] "keep" (by decide)⟩

theorem isEmpty_false_of_ne_nil {α : Type} {l : List α} (h : l ≠ []) :
    l.isEmpty = false := by
  cases l with
  | nil => exact absurd rfl h
  | cons x xs => rfl

/-- When every file is accessible and every basename matches, the alignment
planning loop succeeds and pairs file `i` with record `i`'s trim, collecting
the clip durations `orig_duration - trim`. -/
theorem plan_align_ok_of (fs : FS) :
    ∀ (files : List String) (recs : List AlignInfo),
      files.length = recs.length →
      (∀ i (h1 : i < files.length) (h2 : i < recs.length),
        basename (recs.get ⟨i, h2⟩).file = basename (files.get ⟨i, h1⟩)) →
      (∀ g ∈ files, fs.exists g = true) →
      plan_align fs files recs =
        Except.ok
          (List.zipWith (fun v rec => (v, some rec.trim)) files recs,
           List.zipWith (fun _ rec => qSub rec.orig_duration rec.trim)
             files recs) := by
  intro files
  induction files with
  | nil => intro recs _ _ _; rfl
  | cons v files ih =>
    intro recs hlen hmatch hacc
    cases recs with
    | nil => simp at hlen
    | cons rec recs =>
      have hv : fs.exists v = true := hacc v (List.mem_cons_self _ _)
      have hb : basename rec.file = basename v :=
        hmatch 0 (by simp) (by simp)
      have ihres := ih recs (by simpa using hlen)
        (fun i h1 h2 => hmatch (i + 1) (by simpa using h1) (by simpa using h2))
        (fun g hg => hacc g (List.mem_cons_of_mem _ hg))
      simp only [plan_align]
      rw [if_pos hv, if_pos hb, ihres]
      rfl

/-- A successful alignment plan implies every pair of basenames matched. -/
theorem plan_align_matches (fs : FS) :
    ∀ (files : List String) (recs : List AlignInfo) x,
      plan_align fs files recs = Except.ok x →
      ∀ i (h1 : i < files.length) (h2 : i < recs.length),
        basename (recs.get ⟨i, h2⟩).file = basename (files.get ⟨i, h1⟩) := by
  intro files
  induction files with
  | nil =>
    intro recs x _ i h1 _
    exact absurd h1 (Nat.not_lt_zero i)
  | cons v files ih =>
    intro recs x hok i h1 h2
    cases recs with
    | nil => exact absurd h2 (Nat.not_lt_zero i)
    | cons rec recs =>
      simp only [plan_align] at hok
      by_cases hv : fs.exists v = true
      · rw [if_pos hv] at hok
        by_cases hb : basename rec.file = basename v
        · cases i with
          | zero => exact hb
          | succ j =>
            rw [if_pos hb] at hok
            cases hrec : plan_align fs files recs with
            | error e =>
              rw [hrec] at hok
              exact absurd hok (fun hc => Except.noConfusion hc)
            | ok y =>
              obtain ⟨kws, durs⟩ := y
              exact ih recs (kws, durs) hrec j (Nat.lt_of_succ_lt_succ h1)
                (Nat.lt_of_succ_lt_succ h2)
        · rw [if_neg hb] at hok
          exact absurd hok (fun hc => Except.noConfusion hc)
      · rw [if_neg hv] at hok
        exact absurd hok (fun hc => Except.noConfusion hc)

/-- A successful alignment plan implies every file passed the access check. -/
theorem plan_align_accessible (fs : FS) :
    ∀ (files : List String) (recs : List AlignInfo) x,
      plan_align fs files recs = Except.ok x →
      ∀ g ∈ files, fs.exists g = true := by
  intro files
  induction files with
  | nil =>
    intro recs x _ g hg
    cases hg
  | cons v files ih =>
    intro recs x hok g hg
    cases recs with
    | nil =>
      simp only [plan_align] at hok
      by_cases hv : fs.exists v = true
      · rw [if_pos hv] at hok
        exact absurd hok (fun hc => Except.noConfusion hc)
      · rw [if_neg hv] at hok
        exact absurd hok (fun hc => Except.noConfusion hc)
    | cons rec recs =>
      simp only [plan_align] at hok
      by_cases hv : fs.exists v = true
      · rw [if_pos hv] at hok
        rcases List.mem_cons.mp hg with rfl | hg2
        · exact hv
        · by_cases hb : basename rec.file = basename v
          · rw [if_pos hb] at hok
            cases hrec : plan_align fs files recs with
            | error e =>
              rw [hrec] at hok
              exact absurd hok (fun hc => Except.noConfusion hc)
            | ok y => exact ih recs y hrec g hg2
          · rw [if_neg hb] at hok
            exact absurd hok (fun hc => Except.noConfusion hc)
      · rw [if_neg hv] at hok
        exact absurd hok (fun hc => Except.noConfusion hc)

/-- A successful no-alignment plan implies every file passed the access
check. -/
theorem plan_noalign_accessible (fs : FS) :
    ∀ (files : List String) x,
      plan_noalign fs files = Except.ok x →
      ∀ g ∈ files, fs.exists g = true := by
  intro files
  induction files with
  | nil =>
    intro x _ g hg
    cases hg
  | cons v files ih =>
    intro x hok g hg
    simp only [plan_noalign] at hok
    by_cases hv : fs.exists v = true
    · rw [if_pos hv] at hok
      rcases List.mem_cons.mp hg with rfl | hg2
      · exact hv
      · cases hrec : plan_noalign fs files with
        | error e =>
          rw [hrec] at hok
          exact absurd hok (fun hc => Except.noConfusion hc)
        | ok y => exact ih y hrec g hg2
    · rw [if_neg hv] at hok
      exact absurd hok (fun hc => Except.noConfusion hc)

theorem zipWith_const_left_eq_map {α β γ : Type}
    (g : β → γ) :
    ∀ (xs : List α) (ys : List β), xs.length = ys.length →
      List.zipWith (fun _ y => g y) xs ys = ys.map g := by
  intro xs
  induction xs with
  | nil =>
    intro ys h
    cases ys with
    | nil => rfl
    | cons y ys => simp at h
  | cons x xs ih =>
    intro ys h
    cases ys with
    | nil => simp at h
    | cons y ys =>
      simp only [List.zipWith, List.map]
      rw [ih ys (by simpa using h)]

/-! ## Claim theorems (continued) -/

/-- C2: the output-name builder maps basename `video.mp4` with
`start_offset = 1.5`, `duration = 2.0`, `fps = 30.0`,
`resolution = (640, 480)` to the stem `video_[ss1.50_t2.00_fps30.00_640x480]`;
with no parameters set the stem is the base name with the extension stripped,
unchanged; and in general the stem appends the bracketed tag list in the fixed
order start-offset, duration, fps, resolution (numeric tags at 2 decimal
places, resolution as `WIDTHxHEIGHT`), while the extension is returned
untouched. -/
theorem build_filename_naming_c2 :
    (build_filename "video.mp4" (some (mkRat 3 2)) (some 2) (some 30)
        (some (640, 480))).1 = "video_[ss1.50_t2.00_fps30.00_640x480]"
    ∧ (∀ b : String, (build_filename b none none none none).1 = (splitext b).1)
    ∧ (∀ b so du f r,
        build_filename b so du f r =
          (if buildFeatures so du f r = [] then (splitext b).1
           else (splitext b).1 ++ "_[" ++
             strJoin "_" (buildFeatures so du f r) ++ "]",
           (splitext b).2))
    ∧ (∀ so du f r,
        buildFeatures so du f r =
          (match so with
           | some v => if v != 0 then ["ss" ++ format2f v] else []
           | none => [])
          ++ (match du with
              | some v => if v != 0 then ["t" ++ format2f v] else []
              | none => [])
          ++ (match f with
              | some v => if v != 0 then ["fps" ++ format2f v] else []
              | none => [])
          ++ (match r with
              | some wh => [intStr wh.1 ++ "x" ++ intStr wh.2]
              | none => [])) := by
  refine ⟨by decide, fun b => rfl, fun b so du f r => ?_, ?_⟩
  · unfold build_filename
    cases h : buildFeatures so du f r with
    | nil => simp [h]
    | cons x xs => simp [h]
  · intro so du f r
    unfold buildFeatures truthyQ
    cases so <;> cases du <;> cases f <;> cases r <;> rfl

/-- C9: on the empty input list, `encode_videos` returns the empty list
immediately: the filesystem is unchanged and no external invocation
happens. -/
theorem encode_videos_empty_c9 :
    ∀ tool fs out ow sf ai f r,
      encode_videos tool fs [] out ow sf ai f r =
        (fs, [], Except.ok []) := by
  intros; rfl

/-- C10 (implicit): a zero-valued numeric transform parameter is treated
exactly as an absent one: with `start_offset = 0` (likewise `duration = 0` or
`fps = 0`) the computed name carries no corresponding tag, the constructed
command carries no corresponding flag, and the whole single-file encode
behaves identically to passing `None`. -/
theorem zero_numeric_as_absent_c10 :
    ∀ tool fs v out ow sf so du f r,
      (build_filename v (some 0) du f r = build_filename v none du f r)
      ∧ (build_filename v so (some 0) f r = build_filename v so none f r)
      ∧ (build_filename v so du (some 0) r = build_filename v so du none r)
      ∧ (build_cmd v (some 0) du f r sf = build_cmd v none du f r sf)
      ∧ (build_cmd v so (some 0) f r sf = build_cmd v so none f r sf)
      ∧ (build_cmd v so du (some 0) r sf = build_cmd v so du none r sf)
      ∧ (encode_video_single tool fs v out ow sf (some 0) du f r
          = encode_video_single tool fs v out ow sf none du f r)
      ∧ (encode_video_single tool fs v out ow sf so (some 0) f r
          = encode_video_single tool fs v out ow sf so none f r)
      ∧ (encode_video_single tool fs v out ow sf so du (some 0) r
          = encode_video_single tool fs v out ow sf so du none r) := by
  intros
  exact ⟨rfl, rfl, rfl, rfl, rfl, rfl, rfl, rfl, rfl⟩

/-- C1: with a truthy alignment list whose records match the input files
one-to-one, the batch hands every per-file encode the same shared duration,
namely the minimum over all records of `orig_duration - trim`, while file
`i`'s start offset is record `i`'s own `trim`. -/
theorem batch_shared_duration_c1 :
    ∀ tool fs files recs out ow sf f r d ds,
      files ≠ [] →
      files.length = recs.length →
      (∀ i (h1 : i < files.length) (h2 : i < recs.length),
        basename (recs.get ⟨i, h2⟩).file = basename (files.get ⟨i, h1⟩)) →
      (∀ g ∈ files, fs.exists g = true) →
      recs.map (fun rec => qSub rec.orig_duration rec.trim) = d :: ds →
      (encode_videos tool fs files out ow sf (some recs) f r =
        run_batch tool fs out ow sf (some (listMin d ds)) f r
          (List.zipWith (fun v rec => (v, some rec.trim)) files recs))
      ∧ listMin d ds ∈ d :: ds
      ∧ (∀ x ∈ d :: ds, listMin d ds ≤ x)
      ∧ (∀ rec : AlignInfo,
          qSub rec.orig_duration rec.trim = rec.orig_duration - rec.trim) := by
  intro tool fs files recs out ow sf f r d ds hne hlen hmatch hacc hdurs
  have hfe : files.isEmpty = false := isEmpty_false_of_ne_nil hne
  have hre : recs.isEmpty = false := by
    cases recs with
    | nil =>
      cases files with
      | nil => exact absurd rfl hne
      | cons a b => simp at hlen
    | cons a b => rfl
  have hpa := plan_align_ok_of fs files recs hlen hmatch hacc
  have hz : List.zipWith (fun _ rec => qSub rec.orig_duration rec.trim)
      files recs = d :: ds := by
    rw [zipWith_const_left_eq_map
      (fun rec => qSub rec.orig_duration rec.trim) files recs hlen]
    exact hdurs
  refine ⟨?_, ?_, ?_, fun rec => qSub_eq _ _⟩
  · simp only [encode_videos]
    rw [if_neg (ne_true_of_eq_false hfe)]
    simp only [plan_batch]
    rw [if_neg (ne_true_of_eq_false hre), hpa, hz]
    rfl
  · rcases listMin_mem d ds with h | h
    · rw [h]
      exact List.mem_cons_self _ _
    · exact List.mem_cons_of_mem _ h
  · intro x hx
    rcases List.mem_cons.mp hx with rfl | hx2
    · exact listMin_le_init _ _
    · exact listMin_le_mem d ds x hx2

/-- Witness for C1 at the specification's concrete example: records with
`(orig_duration, trim)` pairs `(10,2)`, `(9,1)`, `(12,5)` give clip durations
`8, 8, 7`, and the shared duration applied to every file is `7`. -/
theorem batch_shared_duration_c1_witness :
    (encode_videos (fun _ => true) ⟨["a.mp4", "b.mp4", "c.mp4"]⟩
        ["a.mp4", "b.mp4", "c.mp4"] "out" false true
        (some ([⟨"a.mp4", 10, 2⟩, ⟨"b.mp4", 9, 1⟩, ⟨"c.mp4", 12, 5⟩] :
          List AlignInfo))
        none none =
      run_batch (fun _ => true) ⟨["a.mp4", "b.mp4", "c.mp4"]⟩ "out" false true
        (some (listMin 8 [8, 7])) none none
        (List.zipWith (fun v rec => (v, some rec.trim))
          ["a.mp4", "b.mp4", "c.mp4"]
          ([⟨"a.mp4", 10, 2⟩, ⟨"b.mp4", 9, 1⟩, ⟨"c.mp4", 12, 5⟩] :
            List AlignInfo)))
    ∧ listMin 8 [8, 7] = 7
    ∧ List.zipWith (fun v rec => (v, some rec.trim))
        ["a.mp4", "b.mp4", "c.mp4"]
        ([⟨"a.mp4", 10, 2⟩, ⟨"b.mp4", 9, 1⟩, ⟨"c.mp4", 12, 5⟩] :
          List AlignInfo) =
      [("a.mp4", some 2), ("b.mp4", some 1), ("c.mp4", some 5)] :=
  ⟨(batch_shared_duration_c1 (fun _ => true) ⟨["a.mp4", "b.mp4", "c.mp4"]⟩
      ["a.mp4", "b.mp4", "c.mp4"]
      ([⟨"a.mp4", 10, 2⟩, ⟨"b.mp4", 9, 1⟩, ⟨"c.mp4", 12, 5⟩] :
        List AlignInfo)
      "out" false true none none 8 [8, 7]
      (by decide) (by decide)
      (by
        intro i h1 h2
        have h3 : i < 3 := by simpa using h1
        interval_cases i <;> rfl)
      (by decide) (by decide)).1,
   by decide, by decide⟩

/-- C5: if alignment records are supplied (truthily) and some record's base
filename differs from the same-index input file's base filename, the batch
raises before the external tool is invoked for any file: the filesystem is
untouched, no command is issued, and the result is an error. -/
theorem batch_mismatch_aborts_c5 :
    ∀ tool fs files out ow sf recs f r,
      (∃ i, ∃ (h1 : i < files.length) (h2 : i < recs.length),
        basename (recs.get ⟨i, h2⟩).file ≠ basename (files.get ⟨i, h1⟩)) →
      (encode_videos tool fs files out ow sf (some recs) f r).1 = fs
      ∧ (encode_videos tool fs files out ow sf (some recs) f r).2.1 = []
      ∧ isError
          (encode_videos tool fs files out ow sf (some recs) f r).2.2 =
        true := by
  intro tool fs files out ow sf recs f r hmis
  obtain ⟨i, h1, h2, hne⟩ := hmis
  have hfe : files.isEmpty = false := by
    cases files with
    | nil => exact absurd h1 (Nat.not_lt_zero i)
    | cons a b => rfl
  have hre : recs.isEmpty = false := by
    cases recs with
    | nil => exact absurd h2 (Nat.not_lt_zero i)
    | cons a b => rfl
  cases hpa : plan_align fs files recs with
  | ok x => exact absurd (plan_align_matches fs files recs x hpa i h1 h2) hne
  | error e =>
    simp only [encode_videos]
    rw [if_neg (ne_true_of_eq_false hfe)]
    simp only [plan_batch]
    rw [if_neg (ne_true_of_eq_false hre), hpa]
    exact ⟨rfl, rfl, rfl⟩

/-- Witness for C5 at a concrete input: record 0 names `b.mp4` while input 0
is `a.mp4`, so the one-file batch errors with no invocation. -/
theorem batch_mismatch_aborts_c5_witness :
    (encode_videos (fun _ => true) ⟨["a.mp4"]⟩ ["a.mp4"] "out" false true
        (some ([⟨"b.mp4", 10, 2⟩] : List AlignInfo)) none none).1 = ⟨["a.mp4"]⟩
    ∧ (encode_videos (fun _ => true) ⟨["a.mp4"]⟩ ["a.mp4"] "out" false true
        (some ([⟨"b.mp4", 10, 2⟩] : List AlignInfo)) none none).2.1 = []
    ∧ isError
        (encode_videos (fun _ => true) ⟨["a.mp4"]⟩ ["a.mp4"] "out" false true
          (some ([⟨"b.mp4", 10, 2⟩] : List AlignInfo)) none none).2.2 = true :=
  batch_mismatch_aborts_c5 (fun _ => true) ⟨["a.mp4"]⟩ ["a.mp4"] "out" false
    true ([⟨"b.mp4", 10, 2⟩] : List AlignInfo) none none
    ⟨0, by decide, by decide, by decide⟩

/-- C7: if any input file of a nonempty batch is inaccessible, the batch
raises before any encoding starts: the filesystem is untouched, no command is
issued, and the result is an error. -/
theorem batch_inaccessible_aborts_c7 :
    ∀ tool fs files out ow sf ai f r g,
      g ∈ files → fs.exists g = false →
      (encode_videos tool fs files out ow sf ai f r).1 = fs
      ∧ (encode_videos tool fs files out ow sf ai f r).2.1 = []
      ∧ isError (encode_videos tool fs files out ow sf ai f r).2.2 = true := by
  intro tool fs files out ow sf ai f r g hg hne
  have hfe : files.isEmpty = false := by
    cases files with
    | nil => cases hg
    | cons a b => rfl
  have hnoal : ∀ x, plan_noalign fs files = Except.ok x → False := by
    intro x hok
    have := plan_noalign_accessible fs files x hok g hg
    rw [this] at hne
    exact Bool.noConfusion hne
  cases hpb : plan_batch fs files ai with
  | ok x =>
    exfalso
    cases ai with
    | none =>
      simp only [plan_batch] at hpb
      cases hpn : plan_noalign fs files with
      | ok y => exact hnoal y hpn
      | error e =>
        rw [hpn] at hpb
        exact absurd hpb (fun hc => Except.noConfusion hc)
    | some recs =>
      simp only [plan_batch] at hpb
      by_cases hre : recs.isEmpty = true
      · rw [if_pos hre] at hpb
        cases hpn : plan_noalign fs files with
        | ok y => exact hnoal y hpn
        | error e =>
          rw [hpn] at hpb
          exact absurd hpb (fun hc => Except.noConfusion hc)
      · rw [if_neg hre] at hpb
        cases hpa : plan_align fs files recs with
        | ok y =>
          have := plan_align_accessible fs files recs y hpa g hg
          rw [this] at hne
          exact Bool.noConfusion hne
        | error e =>
          rw [hpa] at hpb
          exact absurd hpb (fun hc => Except.noConfusion hc)
  | error e =>
    simp only [encode_videos]
    rw [if_neg (ne_true_of_eq_false hfe), hpb]
    exact ⟨rfl, rfl, rfl⟩

/-- Witness for C7 at a concrete input: `a.mp4` does not exist in an empty
filesystem, so the one-file batch errors with no invocation. -/
theorem batch_inaccessible_aborts_c7_witness :
    (encode_videos (fun _ => true) ⟨[]⟩ ["a.mp4"] "out" false true
        none none none).1 = ⟨[]⟩
    ∧ (encode_videos (fun _ => true) ⟨[]⟩ ["a.mp4"] "out" false true
        none none none).2.1 = []
    ∧ isError (encode_videos (fun _ => true) ⟨[]⟩ ["a.mp4"] "out" false true
        none none none).2.2 = true :=
  batch_inaccessible_aborts_c7 (fun _ => true) ⟨[]⟩ ["a.mp4"] "out" false
    true none none none "a.mp4" (by decide) (by decide)

/-! ## Tag-string structure lemmas (towards C4) -/

theorem mem_natDigitsCore :
    ∀ (fuel n : Nat) (acc : List Char) (c : Char),
      c ∈ natDigitsCore fuel n acc →
      (∃ k, k < 10 ∧ c = digitChar k) ∨ c ∈ acc := by
  intro fuel
  induction fuel with
  | zero => intro n acc c h; exact Or.inr h
  | succ fuel ih =>
    intro n acc c h
    simp only [natDigitsCore] at h
    by_cases hn : n < 10
    · rw [if_pos hn] at h
      rcases List.mem_cons.mp h with rfl | h2
      · exact Or.inl ⟨n, hn, rfl⟩
      · exact Or.inr h2
    · rw [if_neg hn] at h
      rcases ih (n / 10) _ c h with h2 | h2
      · exact Or.inl h2
      · rcases List.mem_cons.mp h2 with rfl | h3
        · exact Or.inl ⟨n % 10, Nat.mod_lt _ (by norm_num), rfl⟩
        · exact Or.inr h3

theorem digitChar_ne_underscore {k : Nat} (hk : k < 10) :
    digitChar k ≠ '_' := by
  interval_cases k <;> decide

theorem noUnderscore_natStr (n : Nat) : ∀ c ∈ (natStr n).data, c ≠ '_' := by
  intro c hc
  rcases mem_natDigitsCore (n + 1) n [] c hc with ⟨k, hk, rfl⟩ | h
  · exact digitChar_ne_underscore hk
  · cases h

theorem noUnderscore_append {a b : String}
    (ha : ∀ c ∈ a.data, c ≠ '_') (hb : ∀ c ∈ b.data, c ≠ '_') :
    ∀ c ∈ (a ++ b).data, c ≠ '_' := by
  intro c hc
  rw [String.data_append] at hc
  rcases List.mem_append.mp hc with h | h
  · exact ha c h
  · exact hb c h

theorem noUnderscore_intStr (i : Int) : ∀ c ∈ (intStr i).data, c ≠ '_' := by
  unfold intStr
  by_cases h : i < 0
  · rw [if_pos h]
    exact noUnderscore_append (by decide) (noUnderscore_natStr _)
  · rw [if_neg h]
    exact noUnderscore_natStr _

theorem noUnderscore_fixedStr (scale pad : Nat) (q : ℚ) :
    ∀ c ∈ (fixedStr scale pad q).data, c ≠ '_' := by
  unfold fixedStr
  refine noUnderscore_append (noUnderscore_append (noUnderscore_append
    (noUnderscore_append ?_ (noUnderscore_natStr _)) (by decide)) ?_)
    (noUnderscore_natStr _)
  · by_cases h : roundScaled scale q < 0
    · rw [if_pos h]
      exact (by decide)
    · rw [if_neg h]
      exact (by decide)
  · intro c hc
    have : c = '0' := List.eq_of_mem_replicate hc
    rw [this]
    decide

theorem prefix_nonempty (a b : String) (h : a.data ≠ []) :
    (a ++ b).data ≠ [] := by
  rw [String.data_append]
  intro hc
  exact h (List.append_eq_nil.mp hc).1

theorem res_tag_nonempty (a b : String) : ((a ++ "x") ++ b).data ≠ [] := by
  rw [String.data_append, String.data_append]
  intro h
  obtain ⟨h1, _⟩ := List.append_eq_nil.mp h
  obtain ⟨_, h3⟩ := List.append_eq_nil.mp h1
  exact List.noConfusion h3

/-- Every feature tag is nonempty and free of underscores. -/
theorem buildFeatures_tags (so du f : Option ℚ) (r : Option (Int × Int)) :
    ∀ t ∈ buildFeatures so du f r,
      t.data ≠ [] ∧ ∀ c ∈ t.data, c ≠ '_' := by
  intro t ht
  simp only [buildFeatures] at ht
  rcases List.mem_append.mp ht with ht | ht
  · rcases List.mem_append.mp ht with ht | ht
    · rcases List.mem_append.mp ht with ht | ht
      · by_cases h : truthyQ so = true
        · rw [if_pos h] at ht
          rcases List.mem_cons.mp ht with rfl | hc
          · exact ⟨prefix_nonempty _ _ (by decide),
              noUnderscore_append (by decide) (noUnderscore_fixedStr _ _ _)⟩
          · cases hc
        · rw [if_neg h] at ht
          cases ht
      · by_cases h : truthyQ du = true
        · rw [if_pos h] at ht
          rcases List.mem_cons.mp ht with rfl | hc
          · exact ⟨prefix_nonempty _ _ (by decide),
              noUnderscore_append (by decide) (noUnderscore_fixedStr _ _ _)⟩
          · cases hc
        · rw [if_neg h] at ht
          cases ht
    · by_cases h : truthyQ f = true
      · rw [if_pos h] at ht
        rcases List.mem_cons.mp ht with rfl | hc
        · exact ⟨prefix_nonempty _ _ (by decide),
            noUnderscore_append (by decide) (noUnderscore_fixedStr _ _ _)⟩
        · cases hc
      · rw [if_neg h] at ht
        cases ht
  · cases r with
    | none => cases ht
    | some wh =>
      rcases List.mem_cons.mp ht with rfl | hc
      · exact ⟨res_tag_nonempty _ _,
          noUnderscore_append
            (noUnderscore_append (noUnderscore_intStr _) (by decide))
            (noUnderscore_intStr _)⟩
      · cases hc

/-- Splitting a character list at the first separator is unambiguous when
neither prefix contains the separator. -/
theorem split_first :
    ∀ (a b ra rb : List Char),
      (∀ c ∈ a, c ≠ '_') → (∀ c ∈ b, c ≠ '_') →
      a ++ '_' :: ra = b ++ '_' :: rb → a = b ∧ ra = rb := by
  intro a
  induction a with
  | nil =>
    intro b ra rb _ hb h
    cases b with
    | nil =>
      simp only [List.nil_append] at h
      exact ⟨rfl, List.cons.inj h |>.2⟩
    | cons c bs =>
      simp only [List.nil_append, List.cons_append] at h
      obtain ⟨h1, _⟩ := List.cons.inj h
      exact absurd h1.symm (hb c (List.mem_cons_self _ _))
  | cons c as ih =>
    intro b ra rb ha hb h
    cases b with
    | nil =>
      simp only [List.cons_append, List.nil_append] at h
      obtain ⟨h1, _⟩ := List.cons.inj h
      exact absurd h1 (ha c (List.mem_cons_self _ _))
    | cons d bs =>
      simp only [List.cons_append] at h
      obtain ⟨h1, h2⟩ := List.cons.inj h
      obtain ⟨hab, hr⟩ := ih bs ra rb
        (fun x hx => ha x (List.mem_cons_of_mem _ hx))
        (fun x hx => hb x (List.mem_cons_of_mem _ hx)) h2
      exact ⟨by rw [h1, hab], hr⟩

theorem strJoin_cons2 (x y : String) (ys : List String) :
    (strJoin "_" (x :: y :: ys)).data =
      x.data ++ '_' :: (strJoin "_" (y :: ys)).data := by
  show (x ++ "_" ++ strJoin "_" (y :: ys)).data = _
  rw [String.data_append, String.data_append]
  simp

/-- `"_".join` is injective on lists of nonempty, underscore-free strings. -/
theorem strJoin_underscore_inj :
    ∀ ts us : List String,
      (∀ t ∈ ts, t.data ≠ [] ∧ ∀ c ∈ t.data, c ≠ '_') →
      (∀ u ∈ us, u.data ≠ [] ∧ ∀ c ∈ u.data, c ≠ '_') →
      strJoin "_" ts = strJoin "_" us → ts = us := by
  intro ts
  induction ts with
  | nil =>
    intro us _ hus h
    cases us with
    | nil => rfl
    | cons u us2 =>
      exfalso
      have hd := congrArg String.data h
      cases us2 with
      | nil => exact (hus u (List.mem_cons_self _ _)).1 hd.symm
      | cons u2 us3 =>
        rw [strJoin_cons2] at hd
        obtain ⟨h1, h2⟩ := List.append_eq_nil.mp hd.symm
        exact List.noConfusion h2
  | cons x ts2 ih =>
    intro us hts hus h
    cases us with
    | nil =>
      exfalso
      have hd := congrArg String.data h
      cases ts2 with
      | nil => exact (hts x (List.mem_cons_self _ _)).1 hd
      | cons x2 ts3 =>
        rw [strJoin_cons2] at hd
        obtain ⟨h1, h2⟩ := List.append_eq_nil.mp hd
        exact List.noConfusion h2
    | cons u us2 =>
      cases ts2 with
      | nil =>
        cases us2 with
        | nil =>
          have hxu : x = u := h
          rw [hxu]
        | cons u2 us3 =>
          exfalso
          have hd := congrArg String.data h
          rw [strJoin_cons2] at hd
          have hd2 : x.data =
              u.data ++ '_' :: (strJoin "_" (u2 :: us3)).data := hd
          have hmem : '_' ∈ x.data := by
            rw [hd2]
            exact List.mem_append_right _ (List.mem_cons_self _ _)
          exact (hts x (List.mem_cons_self _ _)).2 '_' hmem rfl
      | cons x2 ts3 =>
        cases us2 with
        | nil =>
          exfalso
          have hd := congrArg String.data h
          rw [strJoin_cons2] at hd
          have hd2 : x.data ++ '_' :: (strJoin "_" (x2 :: ts3)).data =
              u.data := hd
          have hmem : '_' ∈ u.data := by
            rw [← hd2]
            exact List.mem_append_right _ (List.mem_cons_self _ _)
          exact (hus u (List.mem_cons_self _ _)).2 '_' hmem rfl
        | cons u2 us3 =>
          have hd := congrArg String.data h
          rw [strJoin_cons2, strJoin_cons2] at hd
          obtain ⟨h1, h2⟩ := split_first x.data u.data _ _
            (fun c hc => (hts x (List.mem_cons_self _ _)).2 c hc)
            (fun c hc => (hus u (List.mem_cons_self _ _)).2 c hc) hd
          have hx : x = u := String.ext h1
          have hrest : strJoin "_" (x2 :: ts3) = strJoin "_" (u2 :: us3) :=
            String.ext h2
          rw [hx, ih (u2 :: us3)
            (fun t ht => hts t (List.mem_cons_of_mem _ ht))
            (fun t ht => hus t (List.mem_cons_of_mem _ ht)) hrest]

/-- The stem component of `build_filename`, written out. -/
theorem build_filename_fst (b : String) (so du f : Option ℚ)
    (r : Option (Int × Int)) :
    (build_filename b so du f r).1 =
      if (buildFeatures so du f r).isEmpty then (splitext b).1
      else (splitext b).1 ++ "_[" ++
        strJoin "_" (buildFeatures so du f r) ++ "]" :=
  rfl

/-- C4 counterexample: the parameter sets `(start_offset = 0.0, -, -, -)` and
`(None, -, -, -)` are distinct, yet `_build_filename` maps `video.mp4` to the
same output name for both (a zero value is falsy, so its tag is dropped). -/
theorem build_filename_collision_cex_c4 :
    ((some (0 : ℚ), (none : Option ℚ), (none : Option ℚ),
        (none : Option (Int × Int))) ≠
      ((none : Option ℚ), (none : Option ℚ), (none : Option ℚ),
        (none : Option (Int × Int))))
    ∧ build_filename "video.mp4" (some 0) none none none =
      build_filename "video.mp4" none none none none :=
  ⟨by decide, by decide⟩

/-- C4 (amended): for a fixed input basename, two transform-parameter sets
produce the same output name precisely when they render to the same ordered
feature-tag list; in particular distinct parameter sets whose rendered tags
differ never collide, while sets rendering identically (a zero-valued numeric
parameter renders as absent; numeric values agreeing at two decimal places
render alike) do. -/
theorem build_filename_collision_iff_c4 :
    ∀ b so1 du1 f1 r1 so2 du2 f2 r2,
      (build_filename b so1 du1 f1 r1).1 =
        (build_filename b so2 du2 f2 r2).1
      ↔ buildFeatures so1 du1 f1 r1 = buildFeatures so2 du2 f2 r2 := by
  intro b so1 du1 f1 r1 so2 du2 f2 r2
  constructor
  · intro h
    rw [build_filename_fst, build_filename_fst] at h
    by_cases h1 : (buildFeatures so1 du1 f1 r1).isEmpty = true
    · by_cases h2 : (buildFeatures so2 du2 f2 r2).isEmpty = true
      · rw [List.isEmpty_iff.mp h1, List.isEmpty_iff.mp h2]
      · exfalso
        rw [if_pos h1, if_neg h2] at h
        have hl := congrArg (fun s => s.data.length) h
        simp only [String.data_append, List.length_append] at hl
        have e1 : ("_[" : String).data.length = 2 := rfl
        have e2 : ("]" : String).data.length = 1 := rfl
        rw [e1, e2] at hl
        omega
    · by_cases h2 : (buildFeatures so2 du2 f2 r2).isEmpty = true
      · exfalso
        rw [if_neg h1, if_pos h2] at h
        have hl := congrArg (fun s => s.data.length) h
        simp only [String.data_append, List.length_append] at hl
        have e1 : ("_[" : String).data.length = 2 := rfl
        have e2 : ("]" : String).data.length = 1 := rfl
        rw [e1, e2] at hl
        omega
      · rw [if_neg h1, if_neg h2] at h
        have hd := congrArg String.data h
        simp only [String.data_append] at hd
        have hd1 := List.append_cancel_right hd
        have hd2 := List.append_cancel_left hd1
        exact strJoin_underscore_inj _ _
          (buildFeatures_tags so1 du1 f1 r1)
          (buildFeatures_tags so2 du2 f2 r2) (String.ext hd2)
  · intro h
    rw [build_filename_fst, build_filename_fst, h]
